import Mathlib

/-!
  # Verification of a BitTorrent client core

  A shallow embedding, in Lean, of the core of a Rust BitTorrent client:
  the bencode decoder (`decode_bencoded_value` in `main.rs`), the metadata
  model and info-hash derivation (`torrent_file.rs`), the compact peer-list
  parser (`tracker.rs`), the peer wire protocol (`peer.rs`), and the
  parallel piece-download engine (`file_download.rs`).

  Conventions of the embedding:

  * Bytes are `Nat`s (values below 256 on the wire); byte strings are
    `List Nat`.  TCP streams are the list of bytes the peer will send,
    consumed in order; `read_exact` that runs off the end of the list is an
    IO error.
  * Rust `Result::Err` values are `Res.error`; Rust panics (failed
    `assert!`/`assert_eq!`, out-of-bounds slice indexing, debug-mode
    arithmetic overflow, `panic!`) are `Res.crash`.  `Res.fuel` is an
    artifact of fuel-based recursion and is unreachable whenever the fuel
    passed by the wrappers suffices.
  * Loops whose termination is not structural are written on explicit fuel
    so that every definition evaluates by kernel reduction; each wrapper
    passes fuel that provably suffices.
  * The external crates the source leans on are modelled where the claims
    need them: `sha1` (full SHA-1, below), `serde_bencode`'s canonical
    struct serialization (`bencodeInfoBytes`), and the canonical bencode
    encoder of the specification (`encodeBValue`).
-/

set_option maxRecDepth 10000

/-- Outcome of running a fallible piece of Rust code: `ok` mirrors
`Result::Ok`, `error` mirrors `Result::Err`, `crash` mirrors a panic
(failed assertion, out-of-bounds index, arithmetic overflow in debug
builds), and `fuel` marks fuel exhaustion of the embedding (never reached
with the wrappers' fuel). -/
inductive Res (α : Type) where
  | ok (a : α)
  | error
  | crash
  | fuel
deriving DecidableEq

/-- True exactly on `Res.ok`. -/
def Res.isOk {α : Type} : Res α → Bool
  | .ok _ => true
  | _ => false

/-- Sequencing of fallible computations, propagating `error`, `crash` and
`fuel`. -/
def Res.bind {α β : Type} (r : Res α) (f : α → Res β) : Res β :=
  match r with
  | .ok a => f a
  | .error => .error
  | .crash => .crash
  | .fuel => .fuel

/-- Model of `Read::read_exact` into an `n`-byte buffer: consumes exactly
`n` bytes of the stream, or fails (an IO error) when fewer are available. -/
def takeExact (n : Nat) (s : List Nat) : Option (List Nat × List Nat) :=
  if n ≤ s.length then some (s.take n, s.drop n) else none

/-- Big-endian interpretation of a byte list (`u32::from_be_bytes` when the
list has four bytes, `u16::from_be_bytes` when it has two). -/
def beVal (l : List Nat) : Nat := l.foldl (fun a b => a * 256 + b) 0

/-- Truncation to 32 bits, the wrap-around of `u32` arithmetic. -/
def w32 (n : Nat) : Nat := n % 4294967296

/-- Left-rotation of a 32-bit word by `k` bits (`u32::rotate_left`). -/
def rotl (k n : Nat) : Nat := n * 2 ^ k % 4294967296 + n / 2 ^ (32 - k)

/-- Big-endian four-byte encoding of a 32-bit word (`u32::to_be_bytes`). -/
def be32enc (n : Nat) : List Nat :=
  [n / 16777216 % 256, n / 65536 % 256, n / 256 % 256, n % 256]

/-- Big-endian eight-byte encoding of a 64-bit word (`u64::to_be_bytes`). -/
def be64enc (n : Nat) : List Nat :=
  [n / 72057594037927936 % 256, n / 281474976710656 % 256,
   n / 1099511627776 % 256, n / 4294967296 % 256,
   n / 16777216 % 256, n / 65536 % 256, n / 256 % 256, n % 256]

/-- SHA-1 padding: the message, the `0x80` marker, zeros to 56 mod 64
bytes, then the bit length as a big-endian 64-bit integer. -/
def padMsg (m : List Nat) : List Nat :=
  m ++ 128 :: List.replicate ((55 + 64 - m.length % 64) % 64) 0 ++ be64enc (8 * m.length)

/-- Group a byte list into big-endian 32-bit words. -/
def toWords : List Nat → List Nat
  | b0 :: b1 :: b2 :: b3 :: rest =>
    (((b0 * 256 + b1) * 256 + b2) * 256 + b3) :: toWords rest
  | _ => []

/-- Splitting into exact chunks of `n` bytes, dropping a shorter remainder;
the semantics of Rust's `slice::chunks_exact`.  Fuel-indexed so that it
evaluates by kernel reduction. -/
def chunksExactF (n : Nat) : Nat → List Nat → List (List Nat)
  | 0, _ => []
  | f + 1, l => if n ≤ l.length then l.take n :: chunksExactF n f (l.drop n) else []

/-- `chunksExactF` with fuel that always suffices. -/
def chunksExact (n : Nat) (l : List Nat) : List (List Nat) :=
  chunksExactF n (l.length + 1) l

/-- One step of extending the SHA-1 message schedule from 16 to 80 words. -/
def extendWF : Nat → List Nat → List Nat
  | 0, w => w
  | f + 1, w =>
    if w.length < 80 then
      extendWF f (w ++ [rotl 1 (Nat.xor
        (Nat.xor (w.getD (w.length - 3) 0) (w.getD (w.length - 8) 0))
        (Nat.xor (w.getD (w.length - 14) 0) (w.getD (w.length - 16) 0)))])
    else w

/-- One SHA-1 compression round: round index `i`, schedule word `w`. -/
def sha1Step (i w : Nat) (st : Nat × Nat × Nat × Nat × Nat) :
    Nat × Nat × Nat × Nat × Nat :=
  match st with
  | (a, b, c, d, e) =>
    let f :=
      if i < 20 then Nat.lor (Nat.land b c) (Nat.land (Nat.xor b 4294967295) d)
      else if i < 40 then Nat.xor (Nat.xor b c) d
      else if i < 60 then Nat.lor (Nat.lor (Nat.land b c) (Nat.land b d)) (Nat.land c d)
      else Nat.xor (Nat.xor b c) d
    let k :=
      if i < 20 then 1518500249
      else if i < 40 then 1859775393
      else if i < 60 then 2400959708
      else 3395469782
    (w32 (rotl 5 a + f + e + k + w), a, rotl 30 b, c, d)

/-- All 80 SHA-1 compression rounds over the extended schedule. -/
def sha1Rounds : Nat → List Nat → Nat × Nat × Nat × Nat × Nat → Nat × Nat × Nat × Nat × Nat
  | _, [], st => st
  | i, w :: ws, st => sha1Rounds (i + 1) ws (sha1Step i w st)

/-- Process one 64-byte block into the running SHA-1 state. -/
def sha1Block (h : Nat × Nat × Nat × Nat × Nat) (block : List Nat) :
    Nat × Nat × Nat × Nat × Nat :=
  match h, sha1Rounds 0 (extendWF 64 (toWords block)) h with
  | (h0, h1, h2, h3, h4), (a, b, c, d, e) =>
    (w32 (h0 + a), w32 (h1 + b), w32 (h2 + c), w32 (h3 + d), w32 (h4 + e))

/-- SHA-1 of a byte string, as the `sha1` crate computes it: the 20-byte
digest of the padded message. -/
def sha1 (m : List Nat) : List Nat :=
  match (chunksExact 64 (padMsg m)).foldl sha1Block
      (1732584193, 4023233417, 2562383102, 271733878, 3285377520) with
  | (h0, h1, h2, h3, h4) =>
    be32enc h0 ++ be32enc h1 ++ be32enc h2 ++ be32enc h3 ++ be32enc h4

/-! ## Decimal numerals

The bencode codec prints and parses decimal numerals: `natDigits` is the
base-10 digit expansion (most significant first), `natRepr`/`intRepr` the
ASCII rendering used by the canonical encoder, and `parseUsize`/`parseI64`
the semantics of Rust's `str::parse::<usize>` and `str::parse::<i64>`
restricted to what the decoder feeds them. -/

/-- Base-10 digits of a natural number, most significant first. -/
def natDigits (n : Nat) : List Nat :=
  if _h : n < 10 then [n]
  else natDigits (n / 10) ++ [n % 10]
termination_by n
decreasing_by exact Nat.div_lt_self (by omega) (by omega)

/-- ASCII decimal rendering of a natural number. -/
def natRepr (n : Nat) : List Nat := (natDigits n).map (· + 48)

/-- ASCII decimal rendering of an integer: a leading `-` for negatives. -/
def intRepr (n : Int) : List Nat :=
  if n < 0 then 45 :: natRepr (-n).toNat else natRepr n.toNat

/-- Is the byte an ASCII decimal digit? (`char::is_ascii_digit`). -/
def isDigitB (c : Nat) : Bool := 48 ≤ c && c ≤ 57

/-- Value of an ASCII digit string, accumulated left to right as Rust's
integer parsers do. -/
def digitsVal (s : List Nat) : Nat := s.foldl (fun a d => a * 10 + (d - 48)) 0

/-- Magnitude part shared by the integer parsers: at least one byte, all
ASCII digits.  Leading zeros are accepted, exactly as `str::parse` does. -/
def parseDigitsB (s : List Nat) : Option Nat :=
  if s = [] then none
  else if s.all isDigitB then some (digitsVal s) else none

/-- Semantics of `str::parse::<usize>`: an optional `+`, digits, and a
64-bit overflow check. -/
def parseUsize (s : List Nat) : Option Nat :=
  match s with
  | [] => none
  | c :: rest =>
    if c = 43 then
      (parseDigitsB rest).bind fun m =>
        if m ≤ 18446744073709551615 then some m else none
    else
      (parseDigitsB s).bind fun m =>
        if m ≤ 18446744073709551615 then some m else none

/-- Semantics of `str::parse::<i64>`: an optional sign, digits, and the
signed 64-bit overflow check. -/
def parseI64 (s : List Nat) : Option Int :=
  match s with
  | [] => none
  | c :: rest =>
    if c = 45 then
      (parseDigitsB rest).bind fun m =>
        if m ≤ 9223372036854775808 then some (-(m : Int)) else none
    else if c = 43 then
      (parseDigitsB rest).bind fun m =>
        if m ≤ 9223372036854775807 then some ((m : Int)) else none
    else
      (parseDigitsB s).bind fun m =>
        if m ≤ 9223372036854775807 then some ((m : Int)) else none

/-- Model of `str::split_once`: splits at the first occurrence of `c`,
returning the parts before and after it. -/
def splitOnce (c : Nat) : List Nat → Option (List Nat × List Nat)
  | [] => none
  | x :: xs =>
    if x = c then some ([], xs)
    else (splitOnce c xs).map fun p => (x :: p.1, p.2)

/-! ## Byte-string ordering and the `serde_json::Map` model

`serde_json::Map` is (without the `preserve_order` feature) a `BTreeMap`
keyed by `String`, whose order is the lexicographic order of the UTF-8
bytes. -/

/-- Strict lexicographic order on byte strings, the `Ord` instance of Rust
strings and hence of `BTreeMap<String, _>` keys. -/
def lexLt : List Nat → List Nat → Bool
  | [], [] => false
  | [], _ :: _ => true
  | _ :: _, [] => false
  | a :: as1, b :: bs =>
    if a < b then true
    else if a = b then lexLt as1 bs
    else false

/-- All-pairs strict ascending order of a list of keys. -/
def pairwiseLex : List (List Nat) → Bool
  | [] => true
  | k :: rest => rest.all (fun k2 => lexLt k k2) && pairwiseLex rest

/-- `BTreeMap::insert` on the sorted association-list representation:
replaces an equal key, otherwise inserts in order. -/
def mapInsert (k : List Nat) {β : Type} (v : β) :
    List (List Nat × β) → List (List Nat × β)
  | [] => [(k, v)]
  | (k1, v1) :: rest =>
    if lexLt k k1 then (k, v) :: (k1, v1) :: rest
    else if k = k1 then (k, v) :: rest
    else (k1, v1) :: mapInsert k v rest

/-! ## Bencode values -/

/-- The bencode data model (and, equally, the `serde_json::Value` shape the
decoder produces): signed 64-bit integers, byte strings, lists, and
dictionaries represented as the sorted association list underlying a
`BTreeMap`. -/
inductive BValue where
  | int (n : Int)
  | str (s : List Nat)
  | list (xs : List BValue)
  | dict (xs : List (List Nat × BValue))

/-- Canonical encoding of a byte string: decimal length, `:`, the bytes. -/
def encStr (s : List Nat) : List Nat := natRepr s.length ++ 58 :: s

mutual

/-- Modelled from the spec: the canonical bencode encoder of §4.A —
integers as `i<decimal>e`, strings as `<len>:<bytes>`, lists as
`l...e`, dictionaries as `d...e` with keys already in sorted order
(canonical values carry their keys sorted; see `Canon`).  The source
delegates encoding to the `serde_bencode` crate, which is not part of the
repository. -/
def encodeBValue : BValue → List Nat
  | .int n => 105 :: intRepr n ++ [101]
  | .str s => encStr s
  | .list xs => 108 :: encodeList xs ++ [101]
  | .dict xs => 100 :: encodeEntries xs ++ [101]

/-- Concatenated encodings of list elements. -/
def encodeList : List BValue → List Nat
  | [] => []
  | v :: vs => encodeBValue v ++ encodeList vs

/-- Concatenated encodings of dictionary entries, each a string key
followed by its value. -/
def encodeEntries : List (List Nat × BValue) → List Nat
  | [] => []
  | (k, v) :: rest => encStr k ++ encodeBValue v ++ encodeEntries rest

end

/-- Canonical bencode values: integers fit in `i64`, string and key
lengths fit in `usize`, and dictionary keys are strictly ascending (the
sorted-keys canonical form of §4.A). -/
inductive Canon : BValue → Prop where
  | int (n : Int) :
      -9223372036854775808 ≤ n → n ≤ 9223372036854775807 → Canon (.int n)
  | str (s : List Nat) :
      s.length ≤ 18446744073709551615 → Canon (.str s)
  | list (xs : List BValue) :
      (∀ v ∈ xs, Canon v) → Canon (.list xs)
  | dict (xs : List (List Nat × BValue)) :
      (∀ e ∈ xs, Canon e.2) →
      (∀ e ∈ xs, e.1.length ≤ 18446744073709551615) →
      pairwiseLex (xs.map Prod.fst) = true →
      Canon (.dict xs)

mutual

/-- Translation of `decode_bencoded_value` (`main.rs`): dispatch on the
first byte; `i` parses a signed integer up to the first `e`, `l` and `d`
loop until an `e`, a digit starts a length-prefixed string.  The string
branch slices `rest[length..]` and `rest[0..length]`, which panics
(`Res.crash`) when fewer than `length` bytes remain.  Returns the
unconsumed suffix together with the parsed value. -/
def decodeVal : Nat → List Nat → Res (List Nat × BValue)
  | 0, _ => .fuel
  | fuel + 1, s =>
    match s with
    | [] => .error
    | c :: rest =>
      if c = 105 then
        match splitOnce 101 rest with
        | none => .error
        | some (num, rest2) =>
          match parseI64 num with
          | none => .error
          | some n => .ok (rest2, .int n)
      else if c = 108 then
        (decodeItems fuel rest).bind fun p => .ok (p.1, .list p.2)
      else if c = 100 then
        (decodeEntries fuel rest []).bind fun p => .ok (p.1, .dict p.2)
      else if isDigitB c then
        match splitOnce 58 s with
        | none => .error
        | some (lenStr, rest2) =>
          match parseUsize lenStr with
          | none => .error
          | some len =>
            if len ≤ rest2.length then .ok (rest2.drop len, .str (rest2.take len))
            else .crash
      else .error

/-- The `l` loop of `decode_bencoded_value`: elements until a bare `e`. -/
def decodeItems : Nat → List Nat → Res (List Nat × List BValue)
  | 0, _ => .fuel
  | fuel + 1, s =>
    if s.head? = some 101 then .ok (s.tail, [])
    else
      (decodeVal fuel s).bind fun p =>
      (decodeItems fuel p.1).bind fun q =>
      .ok (q.1, p.2 :: q.2)

/-- The `d` loop of `decode_bencoded_value`: a string key then a value,
inserted into the `BTreeMap`, until a bare `e`; a non-string key is an
error. -/
def decodeEntries : Nat → List Nat → List (List Nat × BValue) →
    Res (List Nat × List (List Nat × BValue))
  | 0, _, _ => .fuel
  | fuel + 1, s, acc =>
    if s.head? = some 101 then .ok (s.tail, acc)
    else
      (decodeVal fuel s).bind fun p =>
      match p.2 with
      | .str k =>
        (decodeVal fuel p.1).bind fun q =>
        decodeEntries fuel q.1 (mapInsert k q.2 acc)
      | _ => .error

end

/-- `decode_bencoded_value` with fuel that always suffices: one unit of
fuel per input byte plus one. -/
def decode_bencoded_value (s : List Nat) : Res (List Nat × BValue) :=
  decodeVal (s.length + 1) s

/-! ## Torrent metadata (`torrent_file.rs`) -/

/-- Translation of `serialize_piece`: the pieces field serializes as the
concatenation of the 20-byte hashes into one byte string. -/
def serialize_piece (ps : List (List Nat)) : List Nat := ps.flatten

/-- The loop of `deserialize_piece`'s visitor: while at least 20 bytes
remain, split off a 20-byte hash; a shorter trailing remainder is
silently dropped. -/
def deserializePieceF : Nat → List Nat → List (List Nat)
  | 0, _ => []
  | f + 1, v =>
    if 20 ≤ v.length then v.take 20 :: deserializePieceF f (v.drop 20) else []

/-- `deserialize_piece` with fuel that always suffices. -/
def deserialize_piece (v : List Nat) : List (List Nat) :=
  deserializePieceF (v.length + 1) v

/-- The bytes of the struct field name `length`. -/
def lengthKey : List Nat := [108, 101, 110, 103, 116, 104]

/-- The bytes of the struct field name `name`. -/
def nameKey : List Nat := [110, 97, 109, 101]

/-- The bytes of the serde-renamed field name `piece length`. -/
def pieceLengthKey : List Nat := [112, 105, 101, 99, 101, 32, 108, 101, 110, 103, 116, 104]

/-- The bytes of the struct field name `pieces`. -/
def piecesKey : List Nat := [112, 105, 101, 99, 101, 115]

/-- The typed `Info` of `torrent_file.rs`: `length`, `name`,
`piece_length` (serialized under the key `piece length`), and the list of
20-byte piece hashes. -/
structure Info where
  length : Nat
  name : List Nat
  piece_length : Nat
  pieces : List (List Nat)

/-- Modelled from the spec: `serde_bencode::to_bytes` on `Info` — a
bencode dictionary whose keys appear in sorted order (for `Info` the
declaration order `length`, `name`, `piece length`, `pieces` is already
sorted), integers as `i<n>e`, strings length-prefixed, and the pieces
field flattened by `serialize_piece` into one byte string.  The
`serde_bencode` crate itself is not part of the repository. -/
def bencodeInfoBytes (i : Info) : List Nat :=
  100 :: (encStr lengthKey ++ (105 :: natRepr i.length ++ [101])
    ++ encStr nameKey ++ encStr i.name
    ++ encStr pieceLengthKey ++ (105 :: natRepr i.piece_length ++ [101])
    ++ encStr piecesKey ++ encStr (serialize_piece i.pieces)) ++ [101]

/-- Translation of `Info::hash`: re-encode the typed `Info` with
`serde_bencode` and take the SHA-1 digest of the bytes. -/
def Info.hash (i : Info) : List Nat := sha1 (bencodeInfoBytes i)

/-- The typed `Info` viewed as a canonical bencode dictionary: sorted
keys, pieces re-concatenated as one byte string.  This is the value the
specification says `info_hash` must hash the canonical encoding of. -/
def canonicalInfoValue (i : Info) : BValue :=
  .dict [(lengthKey, .int i.length), (nameKey, .str i.name),
         (pieceLengthKey, .int i.piece_length),
         (piecesKey, .str (serialize_piece i.pieces))]

/-! ## Peer wire protocol (`peer.rs`) -/

/-- The nine peer-message types. -/
inductive MessageType where
  | choke
  | unchoke
  | interested
  | notInterested
  | haveMsg
  | bitfield
  | request
  | piece
  | cancel
deriving DecidableEq

/-- Translation of `impl From<u8> for MessageType`: ids 0 through 8;
any other id hits the `panic!` arm. -/
def messageTypeFrom (b : Nat) : Res MessageType :=
  if b = 0 then .ok .choke
  else if b = 1 then .ok .unchoke
  else if b = 2 then .ok .interested
  else if b = 3 then .ok .notInterested
  else if b = 4 then .ok .haveMsg
  else if b = 5 then .ok .bitfield
  else if b = 6 then .ok .request
  else if b = 7 then .ok .piece
  else if b = 8 then .ok .cancel
  else .crash

/-- `EmptyPayload::try_from_bytes`: asserts the payload is empty. -/
def emptyParse (bytes : List Nat) : Res Unit :=
  if bytes = [] then .ok () else .crash

/-- `Bitfield::try_from_bytes`: accepts any bytes. -/
def bitfieldParse (bytes : List Nat) : Res (List Nat) := .ok bytes

/-- `Piece::try_from_bytes`: at least 8 bytes, a big-endian index and
begin offset, then the block. -/
def pieceParse (bytes : List Nat) : Res (Nat × Nat × List Nat) :=
  if bytes.length < 8 then .error
  else .ok (beVal (bytes.take 4), beVal ((bytes.drop 4).take 4), bytes.drop 8)

/-- Translation of `read_message` (identical in `peer.rs` and
`file_download.rs`): read a 4-byte big-endian length, read one id byte
and convert it (panicking on unknown ids), then size the payload as
`length - 1` — a `usize` subtraction that overflows (a debug-build panic,
modelled as `Res.crash`) when the length prefix is 0 — read the payload
and parse it. -/
def read_message {α : Type} (parse : List Nat → Res α) (s : List Nat) :
    Res ((MessageType × α) × List Nat) :=
  match takeExact 4 s with
  | none => .error
  | some (hdr, s1) =>
    match takeExact 1 s1 with
    | none => .error
    | some (idb, s2) =>
      match messageTypeFrom (idb.headD 0) with
      | .ok mt =>
        if beVal hdr = 0 then .crash
        else
          match takeExact (beVal hdr - 1) s2 with
          | none => .error
          | some (payload, s3) =>
            match parse payload with
            | .ok p => .ok ((mt, p), s3)
            | .error => .error
            | .crash => .crash
            | .fuel => .fuel
      | .error => .error
      | .crash => .crash
      | .fuel => .fuel

/-- The bit test inside `Bitfield::has_piece`: `(byte << bit_index) & 128
== 128` on a `u8`, i.e. left-shift truncated to 8 bits. -/
def hasPieceBool (b : List Nat) (i : Nat) : Bool :=
  b.getD (i / 8) 0 <<< (i % 8) % 256 &&& 128 == 128

/-- Translation of `Bitfield::has_piece`: asserts `i / 8` is in bounds
(panicking otherwise), then tests bit `i % 8` counting from the most
significant bit of byte `i / 8`. -/
def has_piece (b : List Nat) (i : Nat) : Res Bool :=
  if i / 8 < b.length then .ok (hasPieceBool b i) else .crash

/-- The bytes of the protocol string `BitTorrent protocol`. -/
def protocolBytes : List Nat :=
  [66, 105, 116, 84, 111, 114, 114, 101, 110, 116, 32,
   112, 114, 111, 116, 111, 99, 111, 108]

/-- The bytes of the fixed peer id `00112233445566778899` (`PEER_ID`). -/
def peerIdBytes : List Nat :=
  [48, 48, 49, 49, 50, 50, 51, 51, 52, 52, 53, 53, 54, 54, 55, 55, 56, 56, 57, 57]

/-- The 68-byte handshake frame `Handshake::new` sends: pstrlen 19, the
protocol string, 8 reserved zero bytes, the info hash, the peer id. -/
def handshakeFrame (info_hash : List Nat) : List Nat :=
  19 :: protocolBytes ++ List.replicate 8 0 ++ info_hash ++ peerIdBytes

/-- Lowercase hexadecimal digit of a value below 16 (`hex::encode`). -/
def hexDigit (n : Nat) : Nat := if n < 10 then n + 48 else n + 87

/-- Lowercase hexadecimal rendering of a byte string (`hex::encode`). -/
def hexEncode (l : List Nat) : List Nat :=
  (l.map fun b => [hexDigit (b / 16), hexDigit (b % 16)]).flatten

/-- Translation of `handshake` (`peer.rs`): write the 68-byte frame
(`handshakeFrame info_hash`), then `read_exact` 68 bytes back into the
same buffer — the received fields are not compared against anything —
and return the hex encoding of the received peer-id bytes, together with
the unconsumed stream. -/
def handshake (_info_hash : List Nat) (stream : List Nat) :
    Res (List Nat × List Nat) :=
  match takeExact 68 stream with
  | none => .error
  | some (received, rest) => .ok (hexEncode (received.drop 48), rest)

/-- Modelled from the spec: `PieceHash::from(&[u8])` — the impl is not
among the provided sources — is the SHA-1 digest of the buffer, which is
what §4.E's verification step (`SHA-1(buffer) MUST equal expected_hash`)
compares against the expected piece hash. -/
def pieceHashFrom (b : List Nat) : List Nat := sha1 b

/-- The per-block request size, 16 KiB (`CHUNK_SIZE = 1 << 14`). -/
def chunkSize : Nat := 16384

/-- The loop of `request_peice`: while `offset < piece_size`, send
`Request(piece_index, offset, block_size)` with `block_size =
min(piece_size - offset, CHUNK_SIZE)` — recorded in the returned list —
then read one message, assert it is a `Piece` and that its block has
exactly `block_size` bytes, append the block, and advance.  Returns the
requests sent together with the outcome (the assembled buffer and the
unconsumed stream). -/
def fetchLoop : Nat → Nat → Nat → Nat → List Nat → List Nat →
    List (Nat × Nat × Nat) × Res (List Nat × List Nat)
  | 0, _, _, _, _, _ => ([], .fuel)
  | f + 1, pieceIndex, pieceSize, offset, stream, buf =>
    if offset < pieceSize then
      let blockSize := min (pieceSize - offset) chunkSize
      match read_message pieceParse stream with
      | .ok ((mt, pl), rest) =>
        if mt = MessageType.piece then
          if pl.2.2.length = blockSize then
            match fetchLoop f pieceIndex pieceSize (offset + blockSize) rest (buf ++ pl.2.2) with
            | (sent, res) => ((pieceIndex, offset, blockSize) :: sent, res)
          else ([(pieceIndex, offset, blockSize)], .crash)
        else ([(pieceIndex, offset, blockSize)], .crash)
      | .error => ([(pieceIndex, offset, blockSize)], .error)
      | .crash => ([(pieceIndex, offset, blockSize)], .crash)
      | .fuel => ([(pieceIndex, offset, blockSize)], .fuel)
    else ([], .ok (buf, stream))

/-- Translation of `request_peice` (identical in `peer.rs` and
`file_download.rs`): `piece_size = min(size, file_length - piece_index *
size)` — the `usize` subtraction panics in debug builds when
`piece_index * size` exceeds `file_length` — then the block-request loop,
then `assert_eq!(hash, &PieceHash::from(buffer))`, whose failure is a
panic, before returning the buffer. -/
def request_peice (piece_index size : Nat) (hash : List Nat)
    (file_length : Nat) (stream : List Nat) :
    List (Nat × Nat × Nat) × Res (List Nat × List Nat) :=
  if file_length < piece_index * size then ([], .crash)
  else
    let piece_size := min size (file_length - piece_index * size)
    match fetchLoop (piece_size + 1) piece_index piece_size 0 stream [] with
    | (sent, .ok (buf, rest)) =>
      (sent, if pieceHashFrom buf = hash then .ok (buf, rest) else .crash)
    | (sent, .error) => (sent, .error)
    | (sent, .crash) => (sent, .crash)
    | (sent, .fuel) => (sent, .fuel)

/-- The `(offset, block_size)` pairs the request loop walks through for a
piece of the given size, written as its own recursion for reasoning about
the loop. -/
def reqPairsF : Nat → Nat → Nat → List (Nat × Nat)
  | 0, _, _ => []
  | f + 1, ps, off =>
    if off < ps then
      (off, min (ps - off) chunkSize) :: reqPairsF f ps (off + min (ps - off) chunkSize)
    else []

/-- `reqPairsF` from offset 0 with fuel that always suffices. -/
def reqPairs (ps : Nat) : List (Nat × Nat) := reqPairsF (ps + 1) ps 0

/-- The byte stream of a fully cooperative peer for piece `i`: one
correctly sized `Piece` frame (id 7, big-endian index and begin, a
zero-filled block of the requested size) per request. -/
def okStream (i : Nat) (prs : List (Nat × Nat)) : List Nat :=
  (prs.map fun p =>
    be32enc (9 + p.2) ++ 7 :: (be32enc i ++ be32enc p.1 ++ List.replicate p.2 0)).flatten

/-! ## Tracker peer list (`tracker.rs`) -/

/-- A swarm peer: an IPv4 address (four bytes) and a TCP port. -/
structure PeerAddr where
  ip : List Nat
  port : Nat
deriving DecidableEq

/-- One 6-byte compact record: four address bytes and a big-endian
16-bit port. -/
def peerOfChunk (c : List Nat) : PeerAddr :=
  ⟨[c.getD 0 0, c.getD 1 0, c.getD 2 0, c.getD 3 0],
   256 * c.getD 4 0 + c.getD 5 0⟩

/-- Translation of `deserialize_peers`' visitor: `chunks_exact(6)` over
the peers bytes — complete 6-byte records only, any shorter remainder
silently dropped — each mapped to a `PeerAddr`. -/
def deserialize_peers (v : List Nat) : List PeerAddr :=
  (chunksExact 6 v).map peerOfChunk

/-! ## Download coordinator (`file_download.rs`) -/

/-- The shared state a worker mutates: the work queue of
`(piece_index, expected_hash)` items and the output buffer. -/
structure WorkerSt where
  pieces : List (Nat × List Nat)
  fileBuffer : List Nat
deriving DecidableEq

/-- The `copy_to_slice` into `file_buffer[offset..offset + len]`: panics
when the range exceeds the buffer. -/
def copyAt (buf : List Nat) (offset : Nat) (pb : List Nat) : Res (List Nat) :=
  if offset + pb.length ≤ buf.length then
    .ok (buf.take offset ++ pb ++ buf.drop (offset + pb.length))
  else .crash

/-- The `pieces.iter().position(|(index, _)| bitfield.has_piece(*index))`
scan: the position of the first queued piece the peer's bitfield covers;
`has_piece`'s assertion can panic. -/
def findClaim (bf : List Nat) : List (Nat × List Nat) → Res (Option Nat)
  | [] => .ok none
  | (i, _) :: rest =>
    if i / 8 < bf.length then
      if hasPieceBool bf i then .ok (some 0)
      else
        match findClaim bf rest with
        | .ok none => .ok none
        | .ok (some k) => .ok (some (k + 1))
        | .error => .error
        | .crash => .crash
        | .fuel => .fuel
    else .crash

/-- The piece-claim loop of `download_from_peer`: find the first queued
piece the bitfield covers (returning `Ok` when none is left), remove it
from the queue, fetch it with `request_peice`, and on success copy the
buffer to `piece_index * piece_length` and loop; a fetch error leaves the
function with the claimed piece already removed. -/
def dlLoop : Nat → List Nat → Nat → Nat → List Nat → WorkerSt →
    Res Unit × WorkerSt × List Nat
  | 0, _, _, _, s, st => (.fuel, st, s)
  | f + 1, bf, fileLength, pieceLength, stream, st =>
    match findClaim bf st.pieces with
    | .ok none => (.ok (), st, stream)
    | .ok (some pos) =>
      match st.pieces.getD pos (0, []), st.pieces.eraseIdx pos with
      | (pieceIndex, pieceHash), pieces1 =>
        match request_peice pieceIndex pieceLength pieceHash fileLength stream with
        | (_, .ok (pb, rest)) =>
          match copyAt st.fileBuffer (pieceIndex * pieceLength) pb with
          | .ok buf1 => dlLoop f bf fileLength pieceLength rest ⟨pieces1, buf1⟩
          | .error => (.error, ⟨pieces1, st.fileBuffer⟩, rest)
          | .crash => (.crash, ⟨pieces1, st.fileBuffer⟩, rest)
          | .fuel => (.fuel, ⟨pieces1, st.fileBuffer⟩, rest)
        | (_, .error) => (.error, ⟨pieces1, st.fileBuffer⟩, stream)
        | (_, .crash) => (.crash, ⟨pieces1, st.fileBuffer⟩, stream)
        | (_, .fuel) => (.fuel, ⟨pieces1, st.fileBuffer⟩, stream)
    | .error => (.error, st, stream)
    | .crash => (.crash, st, stream)
    | .fuel => (.fuel, st, stream)

/-- Translation of `download_from_peer`: connect (the stream models the
peer's bytes), run the no-validation handshake, read a message and assert
it is a `Bitfield`, send `Interested`, read a message and assert it is an
`Unchoke`, then run the piece-claim loop.  The `info_hash` argument is
taken, as in the source, only to build the outgoing handshake frame; the
reply is never validated. -/
def download_from_peer (_info_hash : List Nat) (fileLength pieceLength : Nat)
    (stream : List Nat) (st : WorkerSt) : Res Unit × WorkerSt × List Nat :=
  match takeExact 68 stream with
  | none => (.error, st, stream)
  | some (_, s1) =>
    match read_message bitfieldParse s1 with
    | .ok ((mt, bf), s2) =>
      if mt = MessageType.bitfield then
        match read_message emptyParse s2 with
        | .ok ((mt2, _), s3) =>
          if mt2 = MessageType.unchoke then
            dlLoop (st.pieces.length + 1) bf fileLength pieceLength s3 st
          else (.crash, st, s3)
        | .error => (.error, st, s2)
        | .crash => (.crash, st, s2)
        | .fuel => (.fuel, st, s2)
      else (.crash, st, s1)
    | .error => (.error, st, s1)
    | .crash => (.crash, st, s1)
    | .fuel => (.fuel, st, s1)

/-- One iteration of `run`'s worker loop: pop a peer off the pool (the
list head models the top of the `Vec` stack; an empty pool returns), run
`download_from_peer`, and on `Err` print a diagnostic and push the peer
back — the claimed piece is not re-enqueued.  A panic unwinds without
returning the peer. -/
def runOnce (_info_hash : List Nat) (fileLength pieceLength : Nat)
    (peers : List Nat) (stream : List Nat) (st : WorkerSt) :
    List Nat × WorkerSt × Res Unit :=
  match peers with
  | [] => ([], st, .ok ())
  | peer :: restPeers =>
    match download_from_peer _info_hash fileLength pieceLength stream st with
    | (.ok _, st1, _) => (restPeers, st1, .ok ())
    | (.error, st1, _) => (peer :: restPeers, st1, .error)
    | (.crash, st1, _) => (restPeers, st1, .crash)
    | (.fuel, st1, _) => (restPeers, st1, .fuel)

/-! ## Properties of decimal numerals -/

/-- The digit expansion is never empty. -/
theorem natDigits_ne_nil (n : Nat) : natDigits n ≠ [] := by
  rw [natDigits]
  split
  · simp
  · simp

/-- Every entry of the digit expansion is below 10. -/
theorem natDigits_lt_ten (n : Nat) : ∀ d ∈ natDigits n, d < 10 := by
  induction n using Nat.strong_induction_on with
  | _ n ih =>
    rw [natDigits]
    split
    · intro d hd
      simp at hd
      omega
    · intro d hd
      simp at hd
      rcases hd with hd | hd
      · exact ih (n / 10) (Nat.div_lt_self (by omega) (by omega)) d hd
      · omega

/-- Folding the digit expansion with base-10 accumulation recovers the
number (shifted by the accumulator). -/
theorem natDigits_foldl (n : Nat) :
    ∀ a, (natDigits n).foldl (fun x d => x * 10 + d) a
      = a * 10 ^ (natDigits n).length + n := by
  induction n using Nat.strong_induction_on with
  | _ n ih =>
    intro a
    rw [natDigits]
    split
    · simp
    · rw [List.foldl_append, List.length_append,
        ih (n / 10) (Nat.div_lt_self (by omega) (by omega)) a]
      simp only [List.foldl_cons, List.foldl_nil, List.length_cons,
        List.length_nil, pow_succ]
      rw [Nat.add_mul, Nat.mul_assoc]
      omega

/-- Every byte of the decimal rendering is an ASCII digit. -/
theorem natRepr_digits (n : Nat) : ∀ d ∈ natRepr n, 48 ≤ d ∧ d ≤ 57 := by
  intro d hd
  unfold natRepr at hd
  rcases List.mem_map.1 hd with ⟨d0, hd0, rfl⟩
  have := natDigits_lt_ten n d0 hd0
  omega

/-- The decimal rendering is never empty. -/
theorem natRepr_ne_nil (n : Nat) : natRepr n ≠ [] := by
  unfold natRepr
  simpa using natDigits_ne_nil n

/-- Parsing back the decimal digit value recovers the number. -/
theorem digitsVal_natRepr (n : Nat) : digitsVal (natRepr n) = n := by
  unfold digitsVal natRepr
  rw [List.foldl_map]
  simp only [Nat.add_sub_cancel]
  rw [natDigits_foldl n 0]
  omega

/-- The magnitude parser inverts the decimal rendering. -/
theorem parseDigitsB_natRepr (n : Nat) : parseDigitsB (natRepr n) = some n := by
  unfold parseDigitsB
  rw [if_neg (natRepr_ne_nil n), if_pos, digitsVal_natRepr]
  rw [List.all_eq_true]
  intro d hd
  have := natRepr_digits n d hd
  simp [isDigitB]
  omega

/-- `str::parse::<usize>` inverts the decimal rendering of any value that
fits in 64 bits. -/
theorem parseUsize_natRepr (n : Nat) (h : n ≤ 18446744073709551615) :
    parseUsize (natRepr n) = some n := by
  rcases hrep : natRepr n with _ | ⟨d, ds⟩
  · exact absurd hrep (natRepr_ne_nil n)
  · have hd : 48 ≤ d ∧ d ≤ 57 := natRepr_digits n d (by rw [hrep]; simp)
    have h43 : ¬ d = 43 := by omega
    simp only [parseUsize]
    rw [if_neg h43, ← hrep, parseDigitsB_natRepr]
    simp [h]

/-- `str::parse::<i64>` inverts the integer rendering of any value in the
signed 64-bit range. -/
theorem parseI64_intRepr (n : Int)
    (h1 : -9223372036854775808 ≤ n) (h2 : n ≤ 9223372036854775807) :
    parseI64 (intRepr n) = some n := by
  unfold intRepr
  by_cases hneg : n < 0
  · rw [if_pos hneg]
    have hle : (-n).toNat ≤ 9223372036854775808 := by omega
    have hcast : (((-n).toNat : Int)) = -n := Int.toNat_of_nonneg (by omega)
    simp only [parseI64, parseDigitsB_natRepr]
    simp [hle, hcast]
  · rw [if_neg hneg]
    rcases hrep : natRepr n.toNat with _ | ⟨d, ds⟩
    · exact absurd hrep (natRepr_ne_nil n.toNat)
    · have hd : 48 ≤ d ∧ d ≤ 57 := natRepr_digits n.toNat d (by rw [hrep]; simp)
      have h45 : ¬ d = 45 := by omega
      have h43 : ¬ d = 43 := by omega
      have hle : n.toNat ≤ 9223372036854775807 := by omega
      have hcast : ((n.toNat : Int)) = n := Int.toNat_of_nonneg (by omega)
      simp only [parseI64]
      rw [if_neg h45, if_neg h43, ← hrep, parseDigitsB_natRepr]
      simp [hle, hcast]

/-- `split_once` finds the first separator: splitting a list that starts
with a separator-free prefix returns that prefix and the suffix. -/
theorem splitOnce_append (c : Nat) :
    ∀ xs ys, c ∉ xs → splitOnce c (xs ++ c :: ys) = some (xs, ys) := by
  intro xs
  induction xs with
  | nil =>
    intro ys _
    simp [splitOnce]
  | cons x xs ih =>
    intro ys hc
    simp only [List.mem_cons, not_or] at hc
    simp only [List.cons_append, splitOnce]
    rw [if_neg (Ne.symm hc.1)]
    simp only [List.append_eq]
    rw [ih ys hc.2]
    rfl

/-! ## Properties of the key order and the map model -/

/-- Strict lexicographic order is irreflexive. -/
theorem lexLt_irrefl : ∀ a, lexLt a a = false := by
  intro a
  induction a with
  | nil => rfl
  | cons x xs ih => simp [lexLt, ih]

/-- Strict lexicographic order is asymmetric. -/
theorem lexLt_asymm : ∀ a b, lexLt a b = true → lexLt b a = false := by
  intro a
  induction a with
  | nil =>
    intro b _
    cases b with
    | nil => rfl
    | cons y ys => rfl
  | cons x xs ih =>
    intro b hab
    cases b with
    | nil => simp [lexLt] at hab
    | cons y ys =>
      simp only [lexLt] at hab ⊢
      by_cases hxy : x < y
      · rw [if_neg (by omega), if_neg (by omega)]
      · rw [if_neg hxy] at hab
        by_cases hx : x = y
        · rw [if_pos hx] at hab
          rw [if_neg (by omega), if_pos hx.symm]
          exact ih ys hab
        · rw [if_neg hx] at hab
          simp at hab


/-- Strictly smaller keys are distinct. -/
theorem lexLt_ne {a b : List Nat} (h : lexLt a b = true) : a ≠ b := by
  intro hab
  rw [hab, lexLt_irrefl] at h
  exact Bool.noConfusion h

/-- Inserting a key above every key of a sorted association list appends
it at the end. -/
theorem mapInsert_append (k : List Nat) {β : Type} (v : β) :
    ∀ l : List (List Nat × β), (∀ a ∈ l.map Prod.fst, lexLt a k = true) →
      mapInsert k v l = l ++ [(k, v)] := by
  intro l
  induction l with
  | nil => intro _; rfl
  | cons e rest ih =>
    intro hall
    rcases e with ⟨k1, v1⟩
    have h1 : lexLt k1 k = true := hall k1 (by simp)
    simp only [mapInsert]
    rw [if_neg, if_neg]
    · rw [ih fun a ha => hall a (by simp [ha])]
      rfl
    · exact fun hk => absurd hk.symm (lexLt_ne h1)
    · simp [lexLt_asymm k1 k h1]

/-- In an all-pairs sorted key list, every key of the prefix is below a
key that follows it. -/
theorem pairwiseLex_split :
    ∀ ks k rest, pairwiseLex (ks ++ k :: rest) = true →
      ∀ a ∈ ks, lexLt a k = true := by
  intro ks
  induction ks with
  | nil => intro k rest _ a ha; simp at ha
  | cons k0 ks ih =>
    intro k rest hp a ha
    simp only [List.cons_append, pairwiseLex, Bool.and_eq_true,
      List.all_eq_true] at hp
    rcases List.mem_cons.1 ha with ha | ha
    · subst ha
      exact hp.1 k (by simp)
    · exact ih k rest hp.2 a ha

/-- Dropping the head of an all-pairs sorted key list keeps it sorted. -/
theorem pairwiseLex_tail {k : List Nat} {ks : List (List Nat)}
    (h : pairwiseLex (k :: ks) = true) : pairwiseLex ks = true := by
  simp only [pairwiseLex, Bool.and_eq_true] at h
  exact h.2

/-! ## Structure of the canonical encoding -/

/-- The encoding of a byte string is at least two bytes. -/
theorem encStr_length (s : List Nat) : 2 ≤ (encStr s).length := by
  unfold encStr
  rcases hrep : natRepr s.length with _ | ⟨d, ds⟩
  · exact absurd hrep (natRepr_ne_nil s.length)
  · simp
    omega

/-- Every encoding is at least two bytes. -/
theorem encodeBValue_length_pos (v : BValue) : 2 ≤ (encodeBValue v).length := by
  cases v with
  | int n => simp [encodeBValue]
  | str s => exact encStr_length s
  | list xs => simp [encodeBValue]
  | dict xs => simp [encodeBValue]

/-- The first byte of an encoding is never the terminator `e`. -/
theorem encodeBValue_head_ne (v : BValue) (t : List Nat) :
    ¬ (encodeBValue v ++ t).head? = some 101 := by
  cases v with
  | int n => simp [encodeBValue]
  | str s =>
    rcases hrep : natRepr s.length with _ | ⟨d, ds⟩
    · exact absurd hrep (natRepr_ne_nil s.length)
    · have hd : 48 ≤ d ∧ d ≤ 57 := natRepr_digits s.length d (by rw [hrep]; simp)
      simp [encodeBValue, encStr, hrep]
      omega
  | list xs => simp [encodeBValue]
  | dict xs => simp [encodeBValue]

/-- The integer rendering never contains the terminator `e`. -/
theorem intRepr_no_e (n : Int) : ¬ 101 ∈ intRepr n := by
  unfold intRepr
  split
  · intro h
    rcases List.mem_cons.1 h with h | h
    · omega
    · have := natRepr_digits _ _ h
      omega
  · intro h
    have := natRepr_digits _ _ h
    omega

/-- The decimal rendering never contains the separator `:`. -/
theorem natRepr_no_colon (n : Nat) : ¬ 58 ∈ natRepr n := by
  intro h
  have := natRepr_digits _ _ h
  omega

/-- Joint statement for the fuel induction behind the round trip:
decoding the canonical encoding of a value, of a list body, or of a
dictionary body consumes exactly the encoding and returns the value. -/
theorem decode_spec : ∀ fuel : Nat,
    (∀ v tail, Canon v → (encodeBValue v).length ≤ fuel →
      decodeVal fuel (encodeBValue v ++ tail) = .ok (tail, v))
    ∧ (∀ xs tail, (∀ v ∈ xs, Canon v) → (encodeList xs).length < fuel →
      decodeItems fuel (encodeList xs ++ 101 :: tail) = .ok (tail, xs))
    ∧ (∀ xs acc tail, (∀ e ∈ xs, Canon e.2) →
      (∀ e ∈ xs, e.1.length ≤ 18446744073709551615) →
      pairwiseLex (acc.map Prod.fst ++ xs.map Prod.fst) = true →
      (encodeEntries xs).length < fuel →
      decodeEntries fuel (encodeEntries xs ++ 101 :: tail) acc
        = .ok (tail, acc ++ xs)) := by
  intro fuel
  induction fuel with
  | zero =>
    refine ⟨?_, ?_, ?_⟩
    · intro v tail _ hlen
      have := encodeBValue_length_pos v
      omega
    · intro xs tail _ hlen
      omega
    · intro xs acc tail _ _ _ hlen
      omega
  | succ fuel ih =>
    obtain ⟨ihP, ihQ, ihR⟩ := ih
    refine ⟨?_, ?_, ?_⟩
    · intro v tail hc hlen
      cases v with
      | int n =>
        have hb : -9223372036854775808 ≤ n ∧ n ≤ 9223372036854775807 := by
          cases hc with
          | int _ h1 h2 => exact ⟨h1, h2⟩
        rw [show encodeBValue (.int n) ++ tail = 105 :: (intRepr n ++ 101 :: tail) from by
          simp [encodeBValue]]
        simp only [decodeVal]
        simp [splitOnce_append 101 (intRepr n) tail (intRepr_no_e n),
          parseI64_intRepr n hb.1 hb.2]
      | str s =>
        have hb : s.length ≤ 18446744073709551615 := by
          cases hc with
          | str _ h1 => exact h1
        rcases hrep : natRepr s.length with _ | ⟨d, ds⟩
        · exact absurd hrep (natRepr_ne_nil s.length)
        · have hd : 48 ≤ d ∧ d ≤ 57 := natRepr_digits s.length d (by rw [hrep]; simp)
          have hsplit : splitOnce 58 ((d :: ds) ++ 58 :: (s ++ tail))
              = some (d :: ds, s ++ tail) :=
            splitOnce_append 58 (d :: ds) (s ++ tail)
              (by rw [← hrep]; exact natRepr_no_colon s.length)
          simp only [List.cons_append] at hsplit
          have hpu : parseUsize (d :: ds) = some s.length := by
            rw [← hrep]
            exact parseUsize_natRepr s.length hb
          rw [show encodeBValue (.str s) ++ tail
              = d :: (ds ++ 58 :: (s ++ tail)) from by
            simp [encodeBValue, encStr, hrep]]
          have h105 : ¬ d = 105 := by omega
          have h108 : ¬ d = 108 := by omega
          have h100 : ¬ d = 100 := by omega
          have hdig : isDigitB d = true := by simp [isDigitB]; omega
          simp only [decodeVal]
          rw [if_neg h105, if_neg h108, if_neg h100, if_pos (by rw [hdig])]
          simp [hsplit, hpu, List.take_left, List.drop_left]
      | list xs =>
        have hall : ∀ u ∈ xs, Canon u := by
          cases hc with
          | list _ h1 => exact h1
        have hlen2 : (encodeList xs).length < fuel := by
          rw [show encodeBValue (.list xs) = 108 :: encodeList xs ++ [101] from by
            simp [encodeBValue]] at hlen
          simp at hlen
          omega
        rw [show encodeBValue (.list xs) ++ tail
            = 108 :: (encodeList xs ++ 101 :: tail) from by simp [encodeBValue]]
        simp only [decodeVal]
        simp [Res.bind, ihQ xs tail hall hlen2]
      | dict xs =>
        have hall : (∀ e ∈ xs, Canon e.2) ∧ (∀ e ∈ xs, e.1.length ≤ 18446744073709551615)
            ∧ pairwiseLex (xs.map Prod.fst) = true := by
          cases hc with
          | dict _ h1 h2 h3 => exact ⟨h1, h2, h3⟩
        have hlen2 : (encodeEntries xs).length < fuel := by
          rw [show encodeBValue (.dict xs) = 100 :: encodeEntries xs ++ [101] from by
            simp [encodeBValue]] at hlen
          simp at hlen
          omega
        rw [show encodeBValue (.dict xs) ++ tail
            = 100 :: (encodeEntries xs ++ 101 :: tail) from by simp [encodeBValue]]
        simp only [decodeVal]
        simp [Res.bind, ihR xs [] tail hall.1 hall.2.1 (by simpa using hall.2.2) hlen2]
    · intro xs tail hall hlen
      cases xs with
      | nil =>
        rw [show encodeList ([] : List BValue) ++ 101 :: tail = 101 :: tail from by
          simp [encodeList]]
        simp [decodeItems]
      | cons v vs =>
        have hlens : (encodeBValue v).length + (encodeList vs).length < fuel + 1 := by
          rw [show encodeList (v :: vs) = encodeBValue v ++ encodeList vs from by
            simp [encodeList]] at hlen
          simpa using hlen
        have hvpos := encodeBValue_length_pos v
        rw [show encodeList (v :: vs) ++ 101 :: tail
            = encodeBValue v ++ (encodeList vs ++ 101 :: tail) from by
          simp [encodeList]]
        simp only [decodeItems]
        rw [if_neg (encodeBValue_head_ne v _)]
        simp [Res.bind, ihP v (encodeList vs ++ 101 :: tail) (hall v (by simp)) (by omega),
          ihQ vs tail (fun u hu => hall u (by simp [hu])) (by omega)]
    · intro xs acc tail hcv hkl hsort hlen
      cases xs with
      | nil =>
        rw [show encodeEntries ([] : List (List Nat × BValue)) ++ 101 :: tail
            = 101 :: tail from by simp [encodeEntries]]
        simp [decodeEntries]
      | cons e rest =>
        rcases e with ⟨k, v⟩
        have hklen : 2 ≤ (encStr k).length := encStr_length k
        have hvpos := encodeBValue_length_pos v
        have hlens : (encStr k).length + ((encodeBValue v).length
            + (encodeEntries rest).length) < fuel + 1 := by
          rw [show encodeEntries ((k, v) :: rest)
              = encStr k ++ encodeBValue v ++ encodeEntries rest from by
            simp [encodeEntries]] at hlen
          simpa using hlen
        have hhead : ¬ (encStr k ++ (encodeBValue v ++ (encodeEntries rest ++ 101 :: tail))).head?
            = some 101 := by
          have h := encodeBValue_head_ne (.str k)
            (encodeBValue v ++ (encodeEntries rest ++ 101 :: tail))
          simpa [encodeBValue] using h
        have hkey : decodeVal fuel
            (encStr k ++ (encodeBValue v ++ (encodeEntries rest ++ 101 :: tail)))
            = .ok (encodeBValue v ++ (encodeEntries rest ++ 101 :: tail), .str k) := by
          have h := ihP (.str k) (encodeBValue v ++ (encodeEntries rest ++ 101 :: tail))
            (Canon.str k (hkl (k, v) (by simp))) (by simp [encodeBValue]; omega)
          simpa [encodeBValue] using h
        have hval : decodeVal fuel (encodeBValue v ++ (encodeEntries rest ++ 101 :: tail))
            = .ok (encodeEntries rest ++ 101 :: tail, v) :=
          ihP v _ (hcv (k, v) (by simp)) (by omega)
        have hins : mapInsert k v acc = acc ++ [(k, v)] := by
          apply mapInsert_append
          intro a ha
          exact pairwiseLex_split (acc.map Prod.fst) k (rest.map Prod.fst)
            (by simpa using hsort) a ha
        have hrec : decodeEntries fuel (encodeEntries rest ++ 101 :: tail) (acc ++ [(k, v)])
            = .ok (tail, (acc ++ [(k, v)]) ++ rest) :=
          ihR rest (acc ++ [(k, v)]) tail
            (fun u hu => hcv u (by simp [hu]))
            (fun u hu => hkl u (by simp [hu]))
            (by simpa using hsort)
            (by omega)
        rw [show encodeEntries ((k, v) :: rest) ++ 101 :: tail
            = encStr k ++ (encodeBValue v ++ (encodeEntries rest ++ 101 :: tail)) from by
          simp [encodeEntries]]
        simp only [decodeEntries]
        rw [if_neg hhead, hkey]
        simp only [Res.bind]
        rw [hval]
        simp only [Res.bind]
        rw [hins, hrec]
        simp

/-- Splitting the concatenation of 20-byte hashes recovers the hashes. -/
theorem deserializePieceF_serialize :
    ∀ ps : List (List Nat), (∀ p ∈ ps, p.length = 20) →
      ∀ f, (serialize_piece ps).length < f →
        deserializePieceF f (serialize_piece ps) = ps := by
  intro ps
  induction ps with
  | nil =>
    intro _ f hf
    cases f with
    | zero => omega
    | succ f => simp [serialize_piece, deserializePieceF]
  | cons p rest ih =>
    intro hall f hf
    have hp : p.length = 20 := hall p (by simp)
    have hser : serialize_piece (p :: rest) = p ++ serialize_piece rest := by
      simp [serialize_piece]
    rw [hser] at hf ⊢
    cases f with
    | zero => omega
    | succ f =>
      simp only [deserializePieceF]
      rw [if_pos (by simp [hp])]
      rw [show (p ++ serialize_piece rest).take 20 = p from by
          rw [← hp]; exact List.take_left p _,
        show (p ++ serialize_piece rest).drop 20 = serialize_piece rest from by
          rw [← hp]; exact List.drop_left p _]
      rw [ih (fun q hq => hall q (by simp [hq])) f (by simp at hf; omega)]

/-- Concatenating the 20-byte chunks of a length-divisible string
recovers the string. -/
theorem serialize_deserializePieceF :
    ∀ f b, 20 ∣ b.length → b.length < f →
      serialize_piece (deserializePieceF f b) = b := by
  intro f
  induction f with
  | zero =>
    intro b _ h
    omega
  | succ f ih =>
    intro b hdvd hlt
    simp only [deserializePieceF]
    by_cases hc : 20 ≤ b.length
    · rw [if_pos hc]
      rw [show serialize_piece (b.take 20 :: deserializePieceF f (b.drop 20))
          = b.take 20 ++ serialize_piece (deserializePieceF f (b.drop 20)) from by
        simp [serialize_piece]]
      rw [ih (b.drop 20) (by simp; omega) (by simp; omega)]
      exact List.take_append_drop 20 b
    · rw [if_neg hc]
      have hz : b.length = 0 := by omega
      simp [serialize_piece, List.length_eq_zero.1 hz]

/-- C2: decoding the canonical encoding of any canonical bencode value —
integers in the signed 64-bit range, lengths representable in `usize`,
dictionary keys strictly sorted — returns the value unchanged with an
empty unconsumed suffix; and the pieces serializer and deserializer are
mutually inverse: splitting inverts concatenating on lists of 20-byte
hashes, and concatenating inverts splitting on byte strings whose length
is a multiple of 20. -/
theorem bencode_round_trip (v : BValue) (hv : Canon v)
    (ps : List (List Nat)) (hps : ∀ p ∈ ps, p.length = 20)
    (b : List Nat) (hb : 20 ∣ b.length) :
    decode_bencoded_value (encodeBValue v) = .ok ([], v)
    ∧ deserialize_piece (serialize_piece ps) = ps
    ∧ serialize_piece (deserialize_piece b) = b := by
  refine ⟨?_, ?_, ?_⟩
  · have h := (decode_spec ((encodeBValue v).length + 1)).1 v [] hv (by omega)
    unfold decode_bencoded_value
    simpa using h
  · unfold deserialize_piece
    exact deserializePieceF_serialize ps hps _ (by omega)
  · unfold deserialize_piece
    exact serialize_deserializePieceF _ b hb (by omega)

/-- Witness for the C2 theorem: the sorted two-entry dictionary of the
specification's scenario 4, a one-hash pieces list, and a 40-byte pieces
string. -/
theorem bencode_round_trip_w :
    decode_bencoded_value (encodeBValue (.dict [([99, 111, 119], .str [109, 111, 111]),
      ([115, 112, 97, 109], .str [101, 103, 103, 115])]))
      = .ok ([], .dict [([99, 111, 119], .str [109, 111, 111]),
        ([115, 112, 97, 109], .str [101, 103, 103, 115])]) :=
  (bencode_round_trip _
    (by
      refine Canon.dict _ ?_ ?_ (by decide)
      · intro e he
        fin_cases he
        · exact Canon.str _ (by decide)
        · exact Canon.str _ (by decide)
      · intro e he
        fin_cases he
        · decide
        · decide)
    [List.replicate 20 5] (by intro p hp; fin_cases hp; decide)
    (List.replicate 40 3) (by decide)).1

/-- C8: the bencode decoder panics — it does not return an error — on a
byte string whose declared length exceeds the bytes available, because
the `rest[length..]` slice is out of bounds: decoding the bytes of
`3:ab` crashes, while the well-formed `5:hello` and `0:` decode to the
string and an empty unconsumed suffix. -/
theorem decode_truncated_string_panics :
    decode_bencoded_value [51, 58, 97, 98] = Res.crash
    ∧ decode_bencoded_value [53, 58, 104, 101, 108, 108, 111]
      = .ok ([], .str [104, 101, 108, 108, 111])
    ∧ decode_bencoded_value [48, 58] = .ok ([], .str []) :=
  ⟨rfl, rfl, rfl⟩

/-- The integer rendering of a natural-number cast is the natural
rendering. -/
theorem intRepr_ofNat (n : Nat) : intRepr (n : Int) = natRepr n := by
  unfold intRepr
  rw [if_neg (by omega)]
  simp

/-- C1: `Info::hash` equals the SHA-1 digest of the canonical bencode
encoding of the typed `Info` viewed as a dictionary with sorted keys and
the piece hashes re-concatenated into one byte string; being a Lean
function of the `Info` value, it depends on nothing else.  The second
conjunct checks that the four keys are strictly sorted, so the encoding
is canonical. -/
theorem info_hash_canonical (i : Info) :
    Info.hash i = sha1 (encodeBValue (canonicalInfoValue i))
    ∧ pairwiseLex [lengthKey, nameKey, pieceLengthKey, piecesKey] = true := by
  constructor
  · unfold Info.hash
    congr 1
    simp [bencodeInfoBytes, canonicalInfoValue, encodeBValue, encodeEntries,
      encStr, intRepr_ofNat]
  · decide

/-- C10: for every incoming frame whose 4-byte length prefix is 0 (a
protocol keep-alive), `read_message` never returns a message normally:
it reads one more byte as a message id regardless, and then sizes the
payload as `length - 1` on a `usize`, which underflows — so the
keep-alive case is an error-or-panic branch, never a no-op success. -/
theorem read_message_zero_length_never_ok {α : Type} (parse : List Nat → Res α)
    (rest : List Nat) :
    (read_message parse (0 :: 0 :: 0 :: 0 :: rest)).isOk = false := by
  have h4 : takeExact 4 (0 :: 0 :: 0 :: 0 :: rest) = some ([0, 0, 0, 0], rest) := by
    unfold takeExact
    rw [if_pos (by simp)]
    simp
  cases rest with
  | nil =>
    unfold read_message
    rw [h4]
    rfl
  | cons b r =>
    have h1 : takeExact 1 (b :: r) = some ([b], r) := by
      unfold takeExact
      rw [if_pos (by simp)]
      simp
    simp only [read_message, h4, h1, List.headD]
    cases hm : messageTypeFrom b with
    | ok mt => simp [beVal, Res.isOk]
    | error => simp [Res.isOk]
    | crash => simp [Res.isOk]
    | fuel => simp [Res.isOk]

/-- MSB-first bit arithmetic behind `has_piece`, checked over all bytes
and bit offsets: the truncated-shift test of the source equals reading
bit `7 - k` of the byte. -/
theorem hasPieceCore : ∀ x < 256, ∀ k < 8,
    (((x <<< k) % 256 &&& 128) == 128) = (x / 2 ^ (7 - k) % 2 == 1) := by
  decide

/-- C5: for every bitfield byte vector and every piece index whose byte
index is in bounds, `has_piece` succeeds and returns true exactly when
bit `i % 8`, counted from the most significant bit of byte `i / 8`, is
set. -/
theorem has_piece_msb_first (b : List Nat) (hb : ∀ x ∈ b, x < 256)
    (i : Nat) (h : i / 8 < b.length) :
    has_piece b i = .ok true ↔ b.getD (i / 8) 0 / 2 ^ (7 - i % 8) % 2 = 1 := by
  have hx : b.getD (i / 8) 0 < 256 := by
    rw [List.getD_eq_getElem b 0 h]
    exact hb _ (List.getElem_mem h)
  have hk : i % 8 < 8 := Nat.mod_lt _ (by omega)
  have core := hasPieceCore (b.getD (i / 8) 0) hx (i % 8) hk
  unfold has_piece
  rw [if_pos h]
  unfold hasPieceBool
  constructor
  · intro hok
    have hbool : ((b.getD (i / 8) 0 <<< (i % 8)) % 256 &&& 128 == 128) = true := by
      cases hcase : ((b.getD (i / 8) 0 <<< (i % 8)) % 256 &&& 128 == 128) with
      | true => rfl
      | false => rw [hcase] at hok; exact absurd hok (by simp)
    rw [hbool] at core
    have := core.symm
    simpa using this
  · intro hbit
    have : (b.getD (i / 8) 0 / 2 ^ (7 - i % 8) % 2 == 1) = true := by simpa using hbit
    rw [this] at core
    rw [core]

/-- Witness for the C5 theorem at the specification's scenario-6 bytes:
`0x80 0x00` has piece 0 and lacks pieces 1 and 8; `0x01 0x00` has
piece 7. -/
theorem has_piece_msb_first_w :
    has_piece [128, 0] 0 = .ok true
    ∧ ¬ has_piece [128, 0] 1 = .ok true
    ∧ ¬ has_piece [128, 0] 8 = .ok true
    ∧ has_piece [1, 0] 7 = .ok true := by
  refine ⟨?_, ?_, ?_, ?_⟩
  · exact (has_piece_msb_first [128, 0] (by decide) 0 (by decide)).mpr (by decide)
  · intro hcon
    exact absurd ((has_piece_msb_first [128, 0] (by decide) 1 (by decide)).mp hcon)
      (by decide)
  · intro hcon
    exact absurd ((has_piece_msb_first [128, 0] (by decide) 8 (by decide)).mp hcon)
      (by decide)
  · exact (has_piece_msb_first [1, 0] (by decide) 7 (by decide)).mpr (by decide)

/-- Counterexample for C7 as stated: a received handshake frame of 68
`0x01` bytes differs from the sent frame in `pstrlen`, `pstr` and the
info-hash region, yet `handshake` succeeds — it validates nothing — and
returns the hex of whatever occupies the peer-id bytes. -/
theorem handshake_no_validation :
    (List.replicate 68 1).take 28 ≠ (handshakeFrame (List.replicate 20 0)).take 28
    ∧ ((List.replicate 68 1).drop 28).take 20 ≠ List.replicate 20 0
    ∧ handshake (List.replicate 20 0) (List.replicate 68 1)
      = .ok (hexEncode (List.replicate 20 1), []) :=
  ⟨by decide, by decide, rfl⟩

/-- C7 as amended: the handshake performs no validation of the received
68-byte frame — a mismatched `pstrlen`, `pstr` or info-hash is not
detected — failing only when fewer than 68 bytes can be read, and on
success returns the hex encoding of the received frame's peer-id bytes. -/
theorem handshake_returns_received_peer_id (ih s : List Nat)
    (h : 68 ≤ s.length) :
    handshake ih s = .ok (hexEncode ((s.take 68).drop 48), s.drop 68) := by
  unfold handshake takeExact
  rw [if_pos h]

/-- Witness for the amended C7 theorem on a stream of 68 `0x02` bytes. -/
theorem handshake_returns_received_peer_id_w :
    handshake (List.replicate 20 0) (List.replicate 68 2)
      = .ok (hexEncode (((List.replicate 68 2).take 68).drop 48),
        (List.replicate 68 2).drop 68) :=
  handshake_returns_received_peer_id (List.replicate 20 0) (List.replicate 68 2)
    (by decide)

/-- Chunking is fuel-invariant once the fuel exceeds the input length. -/
theorem chunksExactF_congr {n : Nat} (hn : 1 ≤ n) :
    ∀ f1 f2 l, l.length < f1 → l.length < f2 →
      chunksExactF n f1 l = chunksExactF n f2 l := by
  intro f1
  induction f1 with
  | zero =>
    intro f2 l h1 _
    omega
  | succ f ih =>
    intro f2 l h1 h2
    cases f2 with
    | zero => omega
    | succ f2 =>
      simp only [chunksExactF]
      by_cases hc : n ≤ l.length
      · rw [if_pos hc, if_pos hc]
        rw [ih f2 (l.drop n) (by simp; omega) (by simp; omega)]
      · rw [if_neg hc, if_neg hc]

/-- Counterexample for C9 as stated: a 7-byte peers string — whose
length is not divisible by 6 — does not produce an error; the visitor
silently drops the trailing byte and returns the one complete record. -/
theorem deserialize_peers_truncates :
    deserialize_peers [1, 2, 3, 4, 0, 80, 9] = [⟨[1, 2, 3, 4], 80⟩] := rfl

/-- C9 as amended: `deserialize_peers` parses consecutive complete
6-byte records — four IPv4 bytes then a big-endian 16-bit port — and
silently drops any trailing remainder shorter than six bytes (so a
length not divisible by 6 yields a truncated peer list, not a
`TrackerError`). -/
theorem deserialize_peers_records (l : List Nat) (hl : l.length < 6)
    (i1 i2 i3 i4 p1 p2 : Nat) (rest : List Nat) :
    deserialize_peers (i1 :: i2 :: i3 :: i4 :: p1 :: p2 :: rest)
      = ⟨[i1, i2, i3, i4], 256 * p1 + p2⟩ :: deserialize_peers rest
    ∧ deserialize_peers l = [] := by
  constructor
  · unfold deserialize_peers chunksExact
    have hstep : chunksExactF 6 ((i1 :: i2 :: i3 :: i4 :: p1 :: p2 :: rest).length + 1)
        (i1 :: i2 :: i3 :: i4 :: p1 :: p2 :: rest)
        = [i1, i2, i3, i4, p1, p2] :: chunksExactF 6 (rest.length + 6) rest := by
      simp only [List.length_cons]
      simp only [chunksExactF]
      rw [if_pos (by simp)]
      simp
    rw [hstep, chunksExactF_congr (by omega) (rest.length + 6) (rest.length + 1) rest
      (by omega) (by omega)]
    simp [peerOfChunk]
  · unfold deserialize_peers chunksExact
    cases l with
    | nil => rfl
    | cons a l2 =>
      simp only [chunksExactF]
      rw [if_neg (by simp at hl ⊢; omega)]
      rfl

/-- Witness for the amended C9 theorem: the 7-byte input of the
counterexample, split as one record plus a dropped remainder. -/
theorem deserialize_peers_records_w :
    deserialize_peers (1 :: 2 :: 3 :: 4 :: 0 :: 80 :: [9])
      = ⟨[1, 2, 3, 4], 80⟩ :: deserialize_peers [9]
    ∧ deserialize_peers [9] = [] :=
  deserialize_peers_records [9] (by decide) 1 2 3 4 0 80 [9]

/-- C3: evaluation of one worker iteration at a failure point, from
`file_download.rs`.  One peer (7) and one claimed piece (index 0): the
handshake, bitfield `0x80` and unchoke succeed, the piece is claimed —
removed from the queue — and then the peer's stream ends, so
`request_peice` fails with an IO error.  The worker returns the peer to
the pool but the work queue finishes empty: the claimed piece
`(0, replicate 20 1)` is lost rather than re-enqueued. -/
theorem worker_drops_claimed_piece_on_error :
    runOnce (List.replicate 20 0) 3 3 [7]
      (List.replicate 68 0 ++ [0, 0, 0, 2, 5, 128, 0, 0, 0, 1, 1])
      ⟨[(0, List.replicate 20 1)], [0, 0, 0]⟩
    = ([7], ⟨[], [0, 0, 0]⟩, .error) := rfl

/-- Counterexample for C6 as stated: a completed request loop (a
zero-size piece, so no blocks) whose buffer hash differs from the
expected hash makes `request_peice` crash — the `assert_eq!` panics —
rather than return an error value to the caller. -/
theorem piece_hash_mismatch_panics :
    request_peice 0 0 (List.replicate 20 0) 5 [] = ([], Res.crash)
    ∧ ([], Res.crash)
      ≠ (([], Res.error) : List (Nat × Nat × Nat) × Res (List Nat × List Nat)) :=
  ⟨rfl, by decide⟩

/-- C6 as amended: when the hash of the assembled buffer differs from
the expected piece hash the fetcher panics (a failed assertion), never
returning the buffer; a buffer is returned successfully only when its
SHA-1 digest equals the expected hash. -/
theorem request_peice_ok_hash (i sz : Nat) (hash : List Nat) (fl : Nat)
    (stream buf rest : List Nat)
    (h : (request_peice i sz hash fl stream).2 = .ok (buf, rest)) :
    pieceHashFrom buf = hash := by
  unfold request_peice at h
  by_cases hg : fl < i * sz
  · rw [if_pos hg] at h
    exact absurd h (by simp)
  · rw [if_neg hg] at h
    dsimp only at h
    rcases hf : fetchLoop (min sz (fl - i * sz) + 1) i (min sz (fl - i * sz)) 0 stream []
      with ⟨sent, res⟩
    rw [hf] at h
    cases res with
    | ok p =>
      rcases p with ⟨b, r⟩
      simp only at h
      by_cases hh : pieceHashFrom b = hash
      · rw [if_pos hh] at h
        rcases h with ⟨rfl, rfl⟩
        exact hh
      · rw [if_neg hh] at h
        exact absurd h (by simp)
    | error => exact absurd h (by simp)
    | crash => exact absurd h (by simp)
    | fuel => exact absurd h (by simp)

/-- Witness for the amended C6 theorem: with the expected hash set to
the digest of the empty buffer, the zero-size fetch succeeds and the
returned buffer hashes to the expected value. -/
theorem request_peice_ok_hash_w : pieceHashFrom [] = sha1 [] :=
  request_peice_ok_hash 0 0 (sha1 []) 5 [] [] [] rfl

/-- Reading exactly the length of the first summand of an append. -/
theorem takeExact_append (l r : List Nat) :
    takeExact l.length (l ++ r) = some (l, r) := by
  unfold takeExact
  rw [if_pos (by simp)]
  rw [List.take_left, List.drop_left]

/-- Reading four bytes off a big-endian 32-bit prefix. -/
theorem takeExact_be32 (n : Nat) (r : List Nat) :
    takeExact 4 (be32enc n ++ r) = some (be32enc n, r) := by
  rw [show (4 : Nat) = (be32enc n).length from by simp [be32enc]]
  exact takeExact_append _ _

/-- Reading a single byte. -/
theorem takeExact_one (a : Nat) (l : List Nat) :
    takeExact 1 (a :: l) = some ([a], l) := by
  unfold takeExact
  rw [if_pos (by simp)]
  simp

/-- The big-endian encoding and interpretation of a 32-bit word are
inverse. -/
theorem beVal_be32enc (n : Nat) (h : n < 4294967296) :
    beVal (be32enc n) = n := by
  unfold beVal be32enc
  simp [List.foldl]
  omega

/-- Reading one well-formed `Piece` frame: length prefix `9 + bs`, id 7,
big-endian index and begin, and a `bs`-byte block. -/
theorem read_message_piece_frame (i off bs : Nat) (hbs : bs ≤ 16384)
    (rest : List Nat) :
    read_message pieceParse
      (be32enc (9 + bs) ++ (7 :: ((be32enc i ++ (be32enc off ++ List.replicate bs 0)) ++ rest)))
      = .ok ((MessageType.piece,
          (beVal (be32enc i), beVal (be32enc off), List.replicate bs 0)), rest) := by
  have hbe : beVal (be32enc (9 + bs)) = 9 + bs := beVal_be32enc _ (by omega)
  have hmt : messageTypeFrom 7 = .ok MessageType.piece := rfl
  have hp : takeExact (9 + bs - 1)
      ((be32enc i ++ (be32enc off ++ List.replicate bs 0)) ++ rest)
      = some (be32enc i ++ (be32enc off ++ List.replicate bs 0), rest) := by
    rw [show 9 + bs - 1 = (be32enc i ++ (be32enc off ++ List.replicate bs 0)).length from by
      simp [be32enc]; omega]
    exact takeExact_append _ _
  have hparse : pieceParse (be32enc i ++ (be32enc off ++ List.replicate bs 0))
      = .ok (beVal (be32enc i), beVal (be32enc off), List.replicate bs 0) := by
    unfold pieceParse
    rw [if_neg (by simp [be32enc])]
    simp [be32enc]
  simp only [read_message, takeExact_be32, takeExact_one, List.headD, hmt, hbe, hp, hparse]
  rw [if_neg (by omega)]

/-- The request loop, fed by a fully cooperative peer, sends exactly the
`(offset, size)` pairs of `reqPairsF`, assembles the concatenation of
the returned blocks, and consumes the whole stream. -/
theorem fetchLoop_okStream : ∀ f ps off i buf, ps - off ≤ f →
    fetchLoop (f + 1) i ps off (okStream i (reqPairsF (f + 1) ps off)) buf
      = ((reqPairsF (f + 1) ps off).map fun p => (i, p.1, p.2),
        .ok (buf ++ ((reqPairsF (f + 1) ps off).map fun p => List.replicate p.2 0).flatten,
          [])) := by
  intro f
  induction f with
  | zero =>
    intro ps off i buf h
    have hc : ¬ off < ps := by omega
    simp only [reqPairsF, fetchLoop]
    rw [if_neg hc, if_neg hc]
    simp [okStream]
  | succ f ih =>
    intro ps off i buf h
    by_cases hc : off < ps
    · have hexp : reqPairsF (f + 1 + 1) ps off
          = (off, min (ps - off) chunkSize)
            :: reqPairsF (f + 1) ps (off + min (ps - off) chunkSize) := by
        simp only [reqPairsF]
        rw [if_pos hc]
      rw [hexp]
      have hstream : okStream i ((off, min (ps - off) chunkSize)
            :: reqPairsF (f + 1) ps (off + min (ps - off) chunkSize))
          = be32enc (9 + min (ps - off) chunkSize)
            ++ (7 :: ((be32enc i ++ (be32enc off
              ++ List.replicate (min (ps - off) chunkSize) 0))
              ++ okStream i (reqPairsF (f + 1) ps (off + min (ps - off) chunkSize)))) := by
        simp [okStream, List.append_assoc]
      rw [hstream]
      have hread := read_message_piece_frame i off (min (ps - off) chunkSize)
        (by simp only [chunkSize]; omega)
        (okStream i (reqPairsF (f + 1) ps (off + min (ps - off) chunkSize)))
      rw [fetchLoop]
      rw [if_pos hc]
      dsimp only
      simp only [hread, List.length_replicate, eq_self_iff_true, if_true]
      rw [ih ps (off + min (ps - off) chunkSize) i
        (buf ++ List.replicate (min (ps - off) chunkSize) 0)
        (by simp only [chunkSize] at *; omega)]
      simp [List.append_assoc]
    · have hexp : reqPairsF (f + 1 + 1) ps off = [] := by
        simp only [reqPairsF]
        rw [if_neg hc]
      rw [hexp]
      simp only [fetchLoop]
      rw [if_neg hc]
      simp [okStream]

/-- The requested block sizes sum to the remaining piece size. -/
theorem reqPairsF_sum : ∀ f ps off, ps - off ≤ f →
    ((reqPairsF f ps off).map Prod.snd).sum = ps - off := by
  intro f
  induction f with
  | zero =>
    intro ps off h
    simp only [reqPairsF]
    simp
    omega
  | succ f ih =>
    intro ps off h
    simp only [reqPairsF]
    by_cases hc : off < ps
    · rw [if_pos hc]
      simp only [List.map_cons, List.sum_cons]
      rw [ih ps (off + min (ps - off) chunkSize) (by simp only [chunkSize] at *; omega)]
      simp only [chunkSize] at *
      omega
    · rw [if_neg hc]
      simp
      omega

/-- Every requested block except possibly the final one is a full
16 KiB chunk. -/
theorem reqPairsF_nonlast : ∀ f ps off k, ps - off ≤ f →
    k + 1 < (reqPairsF f ps off).length →
    ((reqPairsF f ps off).getD k (0, 0)).2 = chunkSize := by
  intro f
  induction f with
  | zero =>
    intro ps off k h hk
    simp [reqPairsF] at hk
  | succ f ih =>
    intro ps off k h hk
    simp only [reqPairsF] at hk ⊢
    by_cases hc : off < ps
    · rw [if_pos hc] at hk ⊢
      simp only [List.length_cons] at hk
      have htail : 0 < (reqPairsF f ps (off + min (ps - off) chunkSize)).length := by
        omega
      have hlt : off + min (ps - off) chunkSize < ps := by
        by_contra hge
        cases f with
        | zero => simp [reqPairsF] at htail
        | succ f2 =>
          simp only [reqPairsF] at htail
          rw [if_neg (by omega)] at htail
          simp at htail
      cases k with
      | zero =>
        simp only [List.getD_cons_zero]
        simp only [chunkSize] at *
        omega
      | succ k2 =>
        simp only [List.getD_cons_succ]
        exact ih ps (off + min (ps - off) chunkSize) k2
          (by simp only [chunkSize] at *; omega) (by omega)
    · rw [if_neg hc] at hk
      simp at hk

/-- The k-th request starts at offset `16384 * k` (counted from the
loop's starting offset) and asks for `min 16384 (remaining)` bytes. -/
theorem reqPairsF_offsets : ∀ f ps off k, ps - off ≤ f →
    k < (reqPairsF f ps off).length →
    (reqPairsF f ps off).getD k (0, 0)
      = (off + chunkSize * k, min chunkSize (ps - (off + chunkSize * k))) := by
  intro f
  induction f with
  | zero =>
    intro ps off k h hk
    simp [reqPairsF] at hk
  | succ f ih =>
    intro ps off k h hk
    simp only [reqPairsF] at hk ⊢
    by_cases hc : off < ps
    · rw [if_pos hc] at hk ⊢
      cases k with
      | zero =>
        simp only [List.getD_cons_zero, Nat.mul_zero, Nat.add_zero]
        rw [Nat.min_comm]
      | succ k2 =>
        simp only [List.getD_cons_succ]
        simp only [List.length_cons] at hk
        have hk2 : k2 < (reqPairsF f ps (off + min (ps - off) chunkSize)).length := by
          omega
        have htail : 0 < (reqPairsF f ps (off + min (ps - off) chunkSize)).length := by
          omega
        have hlt : off + min (ps - off) chunkSize < ps := by
          by_contra hge
          cases f with
          | zero => simp [reqPairsF] at htail
          | succ f2 =>
            simp only [reqPairsF] at htail
            rw [if_neg (by omega)] at htail
            simp at htail
        have hfull : min (ps - off) chunkSize = chunkSize := by
          simp only [chunkSize] at *
          omega
        rw [ih ps (off + min (ps - off) chunkSize) k2
          (by simp only [chunkSize] at *; omega) hk2]
        rw [hfull]
        rw [show off + chunkSize + chunkSize * k2 = off + chunkSize * (k2 + 1) from by ring]
    · rw [if_neg hc] at hk
      simp at hk

/-- C4: for a piece index with `i * piece_length < total_length`, the
fetcher computes `piece_size = min(piece_length, total_length - i *
piece_length)`; the block sizes it walks through sum exactly to
`piece_size`; every block except possibly the final one is the full
16 KiB chunk; the k-th request has offset `16384 * k` and size
`min 16384 (piece_size - 16384 * k)`; against a fully cooperative peer,
`request_peice` sends exactly those `Request(i, offset, size)` triples;
and the example of the specification — `piece_length = 40000`,
`total_length = 92063`, `piece_index = 2` — yields the single request
`(0, 12063)`. -/
theorem request_block_sizing (i L total : Nat) (hash : List Nat)
    (h : i * L < total) :
    ((reqPairs (min L (total - i * L))).map Prod.snd).sum = min L (total - i * L)
    ∧ (∀ k, k + 1 < (reqPairs (min L (total - i * L))).length →
        ((reqPairs (min L (total - i * L))).getD k (0, 0)).2 = chunkSize)
    ∧ (∀ k, k < (reqPairs (min L (total - i * L))).length →
        (reqPairs (min L (total - i * L))).getD k (0, 0)
          = (chunkSize * k, min chunkSize (min L (total - i * L) - chunkSize * k)))
    ∧ ((request_peice i L hash total (okStream i (reqPairs (min L (total - i * L))))).1
        = (reqPairs (min L (total - i * L))).map fun p => (i, p.1, p.2))
    ∧ reqPairs (min 40000 (92063 - 2 * 40000)) = [(0, 12063)] := by
  refine ⟨?_, ?_, ?_, ?_, ?_⟩
  · have hsum := reqPairsF_sum (min L (total - i * L) + 1) (min L (total - i * L)) 0
      (by omega)
    unfold reqPairs
    simpa using hsum
  · intro k hk
    exact reqPairsF_nonlast (min L (total - i * L) + 1) (min L (total - i * L)) 0 k
      (by omega) hk
  · intro k hk
    have hoff := reqPairsF_offsets (min L (total - i * L) + 1) (min L (total - i * L)) 0 k
      (by omega) hk
    unfold reqPairs
    simpa using hoff
  · unfold request_peice
    rw [if_neg (by omega)]
    dsimp only
    unfold reqPairs
    rw [fetchLoop_okStream (min L (total - i * L)) (min L (total - i * L)) 0 i []
      (by omega)]
  · rfl

/-- Witness for the C4 theorem at `piece_index = 1`, `piece_length = 3`,
`total_length = 7`. -/
theorem request_block_sizing_w :
    ((reqPairs (min 3 (7 - 1 * 3))).map Prod.snd).sum = min 3 (7 - 1 * 3) :=
  (request_block_sizing 1 3 7 [] (by decide)).1
